import Mathlib

/-!
# Verification of the `arrayfire` signal-processing binding (`signal.py`)

This file embeds the Python module `arrayfire/signal.py` in Lean 4 and settles
a list of claims about it.

The module is a thin foreign-function binding: every wrapper resolves optional
arguments, marshals scalars through `ctypes` converters, and invokes one native
entry point.  We embed that marshaling layer shallowly and faithfully:

* Python dynamic values that can be `None`, `int` or `float` become `PyVal`;
* `ctypes` conversions (`c_dim_t`, `c_double_t`) and Python builtins (`float`,
  division, tuple indexing) become `Except`-valued functions raising the same
  exceptions the interpreter would;
* each wrapper returns the `BackendCall` describing the native entry point it
  invokes together with the marshaled scalar arguments (doubles are modelled
  exactly as rationals).

The native engine itself (FFT, convolution, FIR/IIR, plan cache) is not part
of the repository source; where a claim depends on it, the engine is modelled
from the specification (definitions carry a `Modelled from the spec:` note)
using exact arithmetic over `ℚ` and `ℂ`.
-/

namespace ArrayFire

/-- A Python value that flows through the optional wrapper arguments:
`None`, an `int`, or a `float` (doubles modelled exactly as `ℚ`). -/
inductive PyVal where
  | vnone : PyVal
  | vint : ℤ → PyVal
  | vfloat : ℚ → PyVal
deriving DecidableEq, Repr

/-- Exceptions the Python marshaling layer can raise. -/
inductive PyErr where
  | typeError : PyErr
  | zeroDivisionError : PyErr
  | indexError : PyErr
deriving DecidableEq, Repr

/-- `ctypes.c_longlong` conversion (`c_dim_t` in the binding): accepts an
`int`, raises `TypeError` on `float` or `None`. -/
def c_dim_t : PyVal → Except PyErr ℤ
  | .vint n => .ok n
  | _ => .error .typeError

/-- `ctypes.c_double` conversion (`c_double_t` in the binding): accepts an
`int` or a `float`, raises `TypeError` on `None`. -/
def c_double_t : PyVal → Except PyErr ℚ
  | .vint n => .ok (n : ℚ)
  | .vfloat q => .ok q
  | .vnone => .error .typeError

/-- The Python builtin `float(...)` on a dynamic value. -/
def pyFloat : PyVal → Except PyErr ℚ
  | .vint n => .ok (n : ℚ)
  | .vfloat q => .ok q
  | .vnone => .error .typeError

/-- Python `1.0 / q`: raises `ZeroDivisionError` on a zero denominator. -/
def pyInv (q : ℚ) : Except PyErr ℚ :=
  if q = 0 then .error .zeroDivisionError else .ok (1 / q)

/-- Python `a * b` on dynamic numeric values. -/
def pyMul : PyVal → PyVal → Except PyErr PyVal
  | .vint a, .vint b => .ok (.vint (a * b))
  | .vint a, .vfloat b => .ok (.vfloat ((a : ℚ) * b))
  | .vfloat a, .vint b => .ok (.vfloat (a * (b : ℚ)))
  | .vfloat a, .vfloat b => .ok (.vfloat (a * b))
  | _, _ => .error .typeError

/-- An `af.Array` as the binding sees it: the tuple returned by `dims()`
(one entry per dimension, trailing unit dimensions trimmed). -/
structure AFArr where
  dims : List ℕ
deriving DecidableEq, Repr

/-- Python tuple indexing `dims()[i]`: raises `IndexError` out of range. -/
def pyIndex (l : List ℕ) (i : ℕ) : Except PyErr ℤ :=
  if h : i < l.length then .ok (l.get ⟨i, h⟩) else .error .indexError

/-- The native entry point a wrapper invokes, with its marshaled scalar
arguments.  One constructor per `af_*` C function reached by the wrappers
under study. -/
inductive BackendCall where
  | af_fft (scale : ℚ) (dim0 : ℤ)
  | af_fft2 (scale : ℚ) (dim0 dim1 : ℤ)
  | af_fft3 (scale : ℚ) (dim0 dim1 dim2 : ℤ)
  | af_ifft (scale : ℚ) (dim0 : ℤ)
  | af_ifft2 (scale : ℚ) (dim0 dim1 : ℤ)
  | af_ifft3 (scale : ℚ) (dim0 dim1 dim2 : ℤ)
  | af_fft_r2c (scale : ℚ) (dim0 : ℤ)
  | af_fft_c2r (scale : ℚ) (is_odd : Bool)
deriving DecidableEq, Repr

/-- `fft(signal, dim0=None, scale=None)` (signal.py:182): default `dim0 = 0`,
default `scale = 1.0`; marshals `scale` then `dim0` into `af_fft`. -/
def fft (signal : AFArr) (dim0 : PyVal) (scale : PyVal) : Except PyErr BackendCall := do
  let _ := signal
  let dim0 := if dim0 = .vnone then .vint 0 else dim0
  let scale := if scale = .vnone then .vfloat 1 else scale
  let s ← c_double_t scale
  let d ← c_dim_t dim0
  return .af_fft s d

/-- `fft2(signal, dim0=None, dim1=None, scale=None)` (signal.py:218). -/
def fft2 (signal : AFArr) (dim0 dim1 : PyVal) (scale : PyVal) :
    Except PyErr BackendCall := do
  let _ := signal
  let dim0 := if dim0 = .vnone then .vint 0 else dim0
  let dim1 := if dim1 = .vnone then .vint 0 else dim1
  let s ← c_double_t (if scale = .vnone then .vfloat 1 else scale)
  let d0 ← c_dim_t dim0
  let d1 ← c_dim_t dim1
  return .af_fft2 s d0 d1

/-- `fft3(signal, dim0=None, dim1=None, dim2=None, scale=None)` (signal.py:261). -/
def fft3 (signal : AFArr) (dim0 dim1 dim2 : PyVal) (scale : PyVal) :
    Except PyErr BackendCall := do
  let _ := signal
  let dim0 := if dim0 = .vnone then .vint 0 else dim0
  let dim1 := if dim1 = .vnone then .vint 0 else dim1
  let dim2 := if dim2 = .vnone then .vint 0 else dim2
  let s ← c_double_t (if scale = .vnone then .vfloat 1 else scale)
  let d0 ← c_dim_t dim0
  let d1 ← c_dim_t dim1
  let d2 ← c_dim_t dim2
  return .af_fft3 s d0 d1 d2

/-- `ifft(signal, dim0=None, scale=None)` (signal.py:311): default
`dim0 = signal.dims()[0]`, default `scale = 1.0/float(dim0)`. -/
def ifft (signal : AFArr) (dim0 : PyVal) (scale : PyVal) : Except PyErr BackendCall := do
  let dim0 ← if dim0 = .vnone then do
      pure (PyVal.vint (← pyIndex signal.dims 0))
    else pure dim0
  let scale ← if scale = .vnone then do
      let q ← pyFloat dim0
      pure (PyVal.vfloat (← pyInv q))
    else pure scale
  let s ← c_double_t scale
  let d ← c_dim_t dim0
  return .af_ifft s d

/-- `ifft2(signal, dim0=None, dim1=None, scale=None)` (signal.py:352): defaults
`dim0 = dims[0]`, `dim1 = dims[1]`, `scale = 1.0/float(dim0*dim1)`. -/
def ifft2 (signal : AFArr) (dim0 dim1 : PyVal) (scale : PyVal) :
    Except PyErr BackendCall := do
  let dims := signal.dims
  let dim0 ← if dim0 = .vnone then do
      pure (PyVal.vint (← pyIndex dims 0))
    else pure dim0
  let dim1 ← if dim1 = .vnone then do
      pure (PyVal.vint (← pyIndex dims 1))
    else pure dim1
  let scale ← if scale = .vnone then do
      let q ← pyFloat (← pyMul dim0 dim1)
      pure (PyVal.vfloat (← pyInv q))
    else pure scale
  let s ← c_double_t scale
  let d0 ← c_dim_t dim0
  let d1 ← c_dim_t dim1
  return .af_ifft2 s d0 d1

/-- `ifft3(signal, dim0=None, dim1=None, dim2=None, scale=None)`
(signal.py:403): defaults `dim0..dim2 = dims[0..2]`,
`scale = 1.0/float(dim0*dim1*dim2)`. -/
def ifft3 (signal : AFArr) (dim0 dim1 dim2 : PyVal) (scale : PyVal) :
    Except PyErr BackendCall := do
  let dims := signal.dims
  let dim0 ← if dim0 = .vnone then do
      pure (PyVal.vint (← pyIndex dims 0))
    else pure dim0
  let dim1 ← if dim1 = .vnone then do
      pure (PyVal.vint (← pyIndex dims 1))
    else pure dim1
  let dim2 ← if dim2 = .vnone then do
      pure (PyVal.vint (← pyIndex dims 2))
    else pure dim2
  let scale ← if scale = .vnone then do
      let q ← pyFloat (← pyMul (← pyMul dim0 dim1) dim2)
      pure (PyVal.vfloat (← pyInv q))
    else pure scale
  let s ← c_double_t scale
  let d0 ← c_dim_t dim0
  let d1 ← c_dim_t dim1
  let d2 ← c_dim_t dim2
  return .af_ifft3 s d0 d1 d2

/-- The `odims` tuple accepted by `dft`/`idft`. -/
def Odims : Type := Option ℤ × Option ℤ × Option ℤ × Option ℤ

/-- Modelled from the spec: `dim4_to_tuple` is defined in `array.py`, which is
not part of the source under study; it normalizes an `odims` tuple to four
entries.  `dft` and `idft` bind its result and never use it, so any total
function is adequate here. -/
def dim4_to_tuple (od : Odims) : Odims := od

/-- `dft(signal, odims=(None,None,None,None), scale=None)` (signal.py:832):
rank-dispatches on `len(signal.dims())` and forwards the signal's own
dimensions as output lengths; `odims4` is computed and discarded. -/
def dft (signal : AFArr) (odims : Odims) (scale : PyVal) : Except PyErr BackendCall :=
  let _odims4 := dim4_to_tuple odims
  let dims := signal.dims
  let ndims := dims.length
  if ndims = 1 then do
    fft signal (.vint (← pyIndex dims 0)) scale
  else if ndims = 2 then do
    fft2 signal (.vint (← pyIndex dims 0)) (.vint (← pyIndex dims 1)) scale
  else do
    fft3 signal (.vint (← pyIndex dims 0)) (.vint (← pyIndex dims 1))
      (.vint (← pyIndex dims 2)) scale

/-- `idft(signal, scale=None, odims=(None,None,None,None))` (signal.py:871).
The source forwards the arguments positionally as `ifft(signal, scale,
dims[0])`, `ifft2(signal, scale, dims[0], dims[1])`, `ifft3(signal, scale,
dims[0], dims[1], dims[2])`; the positions are embedded exactly as written,
so `scale` lands in the `dim0` slot of the callee and the dimensions shift
one slot to the right. -/
def idft (signal : AFArr) (scale : PyVal) (odims : Odims) : Except PyErr BackendCall :=
  let _odims4 := dim4_to_tuple odims
  let dims := signal.dims
  let ndims := dims.length
  if ndims = 1 then do
    ifft signal scale (.vint (← pyIndex dims 0))
  else if ndims = 2 then do
    ifft2 signal scale (.vint (← pyIndex dims 0)) (.vint (← pyIndex dims 1))
  else do
    ifft3 signal scale (.vint (← pyIndex dims 0)) (.vint (← pyIndex dims 1))
      (.vint (← pyIndex dims 2))

/-- C1: the claim says `idft` forwards the signal's own dimensions as per-axis
output lengths and, for `scale=None`, applies the inverse transform with scale
`1/∏(output lengths)`.  The code swaps the positional arguments of the
callees, so on a 1-D signal of dims `[4]` the backend receives scale `4`
(not `1/4`), and on a 2-D signal of dims `[2,3]` the backend receives scale
`3` (not `1/6`) and output lengths `(2,2)` (not `(2,3)`): the claim fails on
the code. -/
theorem idft_swapped_args_bug :
    (idft ⟨[4]⟩ .vnone (none, none, none, none) = .ok (.af_ifft 4 4) ∧
      (4 : ℚ) ≠ 1 / 4) ∧
    (idft ⟨[2, 3]⟩ .vnone (none, none, none, none) = .ok (.af_ifft2 3 2 2) ∧
      (3 : ℚ) ≠ 1 / (2 * 3) ∧ (2 : ℤ) ≠ 3) ∧
    (idft ⟨[2, 3, 4]⟩ .vnone (none, none, none, none) =
        .ok (.af_ifft3 4 2 2 3) ∧ (4 : ℚ) ≠ 1 / (2 * 3 * 4)) := by
  refine ⟨⟨rfl, by norm_num⟩, ⟨rfl, by norm_num, by norm_num⟩, ⟨rfl, by norm_num⟩⟩

/-! ## Interpolation wrappers (`approx1`, `interp1d`) -/

/-- The interpolation methods of `af.INTERP` used by the wrappers. -/
inductive INTERP where
  | LINEAR : INTERP
  | NEAREST : INTERP
  | CUBIC : INTERP
  | LOWER : INTERP
deriving DecidableEq, Repr

/-- The native call issued by `approx1` (signal.py:17): the signal handle, the
interpolation positions, the method and the off-grid value, all forwarded
unchanged (`c_float_t` on an exact scalar is the identity here).  Arrays are
represented by their axis-0 column of data. -/
structure Approx1Call where
  signal : List ℚ
  pos0 : List ℚ
  method : INTERP
  off_grid : ℚ
deriving DecidableEq, Repr

/-- `approx1(signal, pos0, method=INTERP.LINEAR, off_grid=0.0)` (signal.py:17):
pure marshaling into `af_approx1`. -/
def approx1 (signal : List ℚ) (pos0 : List ℚ) (method : INTERP) (off_grid : ℚ) :
    Approx1Call :=
  ⟨signal, pos0, method, off_grid⟩

/-- `interp1d(x_interpolated, x_input, signal_input, method, off_grid)`
(signal.py:97): computes `dx = x_input[1,0,0,0] - x_input[0,0,0,0]` and
`pos0 = (x_interpolated - x_input[0,0,0,0]) / dx` elementwise, then delegates
to `approx1`.  `x_input` is represented by its axis-0 column; Python indexing
requires it to have at least two entries. -/
def interp1d (x_interpolated : List ℚ) (x_input : List ℚ) (signal_input : List ℚ)
    (method : INTERP) (off_grid : ℚ) : Approx1Call :=
  let dx := x_input.getD 1 0 - x_input.getD 0 0
  let pos0 := x_interpolated.map (fun v => (v - x_input.getD 0 0) / dx)
  approx1 signal_input pos0 method off_grid

/-- C10: `interp1d` equals `approx1` on positions
`(x_interpolated - x_input[0]) / (x_input[1] - x_input[0])`, and its result
depends on `x_input` only through its first two elements, so a non-uniform
grid is silently treated as uniform with the spacing of the first interval. -/
theorem interp1d_eq_approx1_first_interval
    (xi x x' s : List ℚ) (m : INTERP) (o : ℚ)
    (hx : 2 ≤ x.length) (hx' : 2 ≤ x'.length)
    (h0 : x.getD 0 0 = x'.getD 0 0) (h1 : x.getD 1 0 = x'.getD 1 0) :
    interp1d xi x s m o =
      approx1 s (xi.map (fun v => (v - x.getD 0 0) / (x.getD 1 0 - x.getD 0 0))) m o ∧
    interp1d xi x s m o = interp1d xi x' s m o := by
  refine ⟨rfl, ?_⟩
  simp only [interp1d, h0, h1]

/-- Witness for C10 at a concrete non-uniform grid: `x = [0,2,5]` and
`x' = [0,2,100]` share only their first interval, yet `interp1d` produces the
same call for both. -/
theorem interp1d_eq_approx1_first_interval_witness :
    interp1d [1, 3] [0, 2, 5] [10, 20, 30] .LINEAR 0 =
      approx1 [10, 20, 30]
        ([1, 3].map (fun v => (v - ([0, 2, 5] : List ℚ).getD 0 0) /
          (([0, 2, 5] : List ℚ).getD 1 0 - ([0, 2, 5] : List ℚ).getD 0 0))) .LINEAR 0 ∧
    interp1d [1, 3] [0, 2, 5] [10, 20, 30] .LINEAR 0 =
      interp1d [1, 3] [0, 2, 100] [10, 20, 30] .LINEAR 0 :=
  interp1d_eq_approx1_first_interval [1, 3] [0, 2, 5] [0, 2, 100] [10, 20, 30]
    .LINEAR 0 (by decide) (by decide) (by decide) (by decide)

/-- C9: the `odims` parameter of `dft` and `idft` is bound (via
`dim4_to_tuple`) and never used, so for every signal and scale the resulting
backend invocation is identical for any two values of `odims`. -/
theorem dft_idft_odims_unused (signal : AFArr) (scale : PyVal) (od od' : Odims) :
    dft signal od scale = dft signal od' scale ∧
      idft signal scale od = idft signal scale od' :=
  ⟨rfl, rfl⟩

/-! ## Convolution engine (modelled from the spec)

The wrappers `convolve1/2/3` and `fft_convolve1/2/3` (signal.py:914-1300)
marshal straight into the native engine, which is not part of the source under
study; the engine is modelled here from spec §4.4 over exact rationals. -/

/-- `af.CONV_MODE`: DEFAULT clips the output to the signal's own extent,
EXPAND returns the full linear-convolution extent. -/
inductive CONV_MODE where
  | DEFAULT : CONV_MODE
  | EXPAND : CONV_MODE
deriving DecidableEq, Repr

/-- `af.CONV_DOMAIN`: spatial-domain, frequency-domain, or automatic choice. -/
inductive CONV_DOMAIN where
  | AUTO : CONV_DOMAIN
  | SPATIAL : CONV_DOMAIN
  | FREQ : CONV_DOMAIN
deriving DecidableEq, Repr

/-- Entry `n` of the full 1-D linear convolution of `a` and `b`:
`∑_i a[i] · b[n-i]`, out-of-range indices of either operand contributing
zero (this is also spec §4.6's FIR formula with `a` the coefficients). -/
def linConvEntry (a b : List ℚ) (n : ℕ) : ℚ :=
  ∑ i ∈ Finset.range a.length, if i ≤ n then a.getD i 0 * b.getD (n - i) 0 else 0

/-- Modelled from the spec: the spatial-domain path of the native 1-D
convolution — the full linear convolution, of extent
`signal_len + kernel_len - 1` (§4.4). -/
def convLinFull (s k : List ℚ) : List ℚ :=
  (List.range (s.length + k.length - 1)).map (linConvEntry s k)

/-- Entry `n` of the frequency-domain path: both operands are zero-padded to
`N = signal_len + kernel_len - 1` and convolved cyclically (a pointwise
multiply of `N`-point spectra computes exactly the `N`-point cyclic
convolution of the padded inputs, spec §4.4). -/
def cycConvEntry (s k : List ℚ) (n : ℕ) : ℚ :=
  ∑ j ∈ Finset.range (s.length + k.length - 1),
    s.getD j 0 * k.getD ((n + (s.length + k.length - 1) - j) % (s.length + k.length - 1)) 0

/-- Modelled from the spec: the frequency-domain path of the native 1-D
convolution (§4.4, via the transform engine of §4.3). -/
def convFreqFull (s k : List ℚ) : List ℚ :=
  (List.range (s.length + k.length - 1)).map (cycConvEntry s k)

/-- Modelled from the spec: AUTO "selects SPATIAL for small kernels and FREQ
for large kernels, using a size-ratio heuristic" (§4.4); the exact threshold
is implementation-defined (§9), fixed here at kernel length 11. -/
def resolveDomain (klen : ℕ) : CONV_DOMAIN → CONV_DOMAIN
  | .AUTO => if klen ≤ 11 then .SPATIAL else .FREQ
  | d => d

/-- Mode clipping (§4.4): EXPAND keeps the full extent; DEFAULT clips to the
signal's own extent with centered kernel alignment. -/
def clipMode (slen klen : ℕ) : CONV_MODE → List ℚ → List ℚ
  | .EXPAND, full => full
  | .DEFAULT, full => (full.drop (klen / 2)).take slen

/-- Modelled from the spec: `convolve1(signal, kernel, conv_mode, conv_domain)`
(signal.py:914, native engine per §4.4). -/
def convolve1 (signal kernel : List ℚ) (conv_mode : CONV_MODE)
    (conv_domain : CONV_DOMAIN) : List ℚ :=
  match resolveDomain kernel.length conv_domain with
  | .FREQ => clipMode signal.length kernel.length conv_mode (convFreqFull signal kernel)
  | _ => clipMode signal.length kernel.length conv_mode (convLinFull signal kernel)

/-- `fft_convolve1(signal, kernel, conv_mode)` (signal.py:1130): per the spec,
"`fft_convolve*` is `convolve*` with `domain` pinned to FREQ; it does not
accept a domain parameter" (§4.4). -/
def fft_convolve1 (signal kernel : List ℚ) (conv_mode : CONV_MODE) : List ℚ :=
  convolve1 signal kernel conv_mode .FREQ

/-- A dense 2-D array: dimensions plus an entry function (zero-padded reads
outside the extent go through `Grid2.pad`). -/
structure Grid2 where
  d0 : ℕ
  d1 : ℕ
  entry : ℕ → ℕ → ℚ

/-- Zero-padded read of a 2-D array. -/
def Grid2.pad (g : Grid2) (i j : ℕ) : ℚ :=
  if i < g.d0 ∧ j < g.d1 then g.entry i j else 0

/-- Entry of the full 2-D linear convolution. -/
def conv2Entry (s k : Grid2) (n0 n1 : ℕ) : ℚ :=
  ∑ i0 ∈ Finset.range s.d0, ∑ i1 ∈ Finset.range s.d1,
    if i0 ≤ n0 ∧ i1 ≤ n1 then s.pad i0 i1 * k.pad (n0 - i0) (n1 - i1) else 0

/-- Modelled from the spec: `convolve2(signal, kernel, conv_mode, conv_domain)`
(signal.py:963).  Per spec §4.4 the FREQ path is the transform engine composed
with pointwise multiplication and §8 requires it to agree with the spatial
path, so both domains share the linear-convolution semantics; `conv_domain`
selects only the algorithm. -/
def convolve2 (signal kernel : Grid2) (conv_mode : CONV_MODE)
    (conv_domain : CONV_DOMAIN) : Grid2 :=
  let _ := resolveDomain kernel.d0 conv_domain
  match conv_mode with
  | .EXPAND =>
      ⟨signal.d0 + kernel.d0 - 1, signal.d1 + kernel.d1 - 1, conv2Entry signal kernel⟩
  | .DEFAULT =>
      ⟨signal.d0, signal.d1,
        fun n0 n1 => conv2Entry signal kernel (n0 + kernel.d0 / 2) (n1 + kernel.d1 / 2)⟩

/-- `fft_convolve2(signal, kernel, conv_mode)` (signal.py:1175): `convolve2`
with `domain` pinned to FREQ (§4.4). -/
def fft_convolve2 (signal kernel : Grid2) (conv_mode : CONV_MODE) : Grid2 :=
  convolve2 signal kernel conv_mode .FREQ

/-- A dense 3-D array: dimensions plus an entry function. -/
structure Grid3 where
  d0 : ℕ
  d1 : ℕ
  d2 : ℕ
  entry : ℕ → ℕ → ℕ → ℚ

/-- Zero-padded read of a 3-D array. -/
def Grid3.pad (g : Grid3) (i j l : ℕ) : ℚ :=
  if i < g.d0 ∧ j < g.d1 ∧ l < g.d2 then g.entry i j l else 0

/-- Entry of the full 3-D linear convolution. -/
def conv3Entry (s k : Grid3) (n0 n1 n2 : ℕ) : ℚ :=
  ∑ i0 ∈ Finset.range s.d0, ∑ i1 ∈ Finset.range s.d1, ∑ i2 ∈ Finset.range s.d2,
    if i0 ≤ n0 ∧ i1 ≤ n1 ∧ i2 ≤ n2 then
      s.pad i0 i1 i2 * k.pad (n0 - i0) (n1 - i1) (n2 - i2)
    else 0

/-- Modelled from the spec: `convolve3(signal, kernel, conv_mode, conv_domain)`
(signal.py:1042); domains share the linear-convolution semantics as in
`convolve2`. -/
def convolve3 (signal kernel : Grid3) (conv_mode : CONV_MODE)
    (conv_domain : CONV_DOMAIN) : Grid3 :=
  let _ := resolveDomain kernel.d0 conv_domain
  match conv_mode with
  | .EXPAND =>
      ⟨signal.d0 + kernel.d0 - 1, signal.d1 + kernel.d1 - 1, signal.d2 + kernel.d2 - 1,
        conv3Entry signal kernel⟩
  | .DEFAULT =>
      ⟨signal.d0, signal.d1, signal.d2,
        fun n0 n1 n2 =>
          conv3Entry signal kernel (n0 + kernel.d0 / 2) (n1 + kernel.d1 / 2)
            (n2 + kernel.d2 / 2)⟩

/-- `fft_convolve3(signal, kernel, conv_mode)` (signal.py:1219): `convolve3`
with `domain` pinned to FREQ (§4.4). -/
def fft_convolve3 (signal kernel : Grid3) (conv_mode : CONV_MODE) : Grid3 :=
  convolve3 signal kernel conv_mode .FREQ

/-- C3: for every signal, kernel and mode, the `fft_convolve` family produces
exactly the result of the corresponding `convolve` function with
`conv_domain = FREQ`; the `fft_convolve` functions take no domain parameter
(their Lean signatures, like the Python ones, have none). -/
theorem fft_convolve_eq_convolve_freq :
    (∀ (s k : List ℚ) (m : CONV_MODE),
      fft_convolve1 s k m = convolve1 s k m .FREQ) ∧
    (∀ (s k : Grid2) (m : CONV_MODE),
      fft_convolve2 s k m = convolve2 s k m .FREQ) ∧
    (∀ (s k : Grid3) (m : CONV_MODE),
      fft_convolve3 s k m = convolve3 s k m .FREQ) :=
  ⟨fun _ _ _ => rfl, fun _ _ _ => rfl, fun _ _ _ => rfl⟩

/-- C4: for a 1-D signal and a nonempty kernel, EXPAND mode yields output
length `len(s) + len(k) - 1` along the convolved axis, while DEFAULT mode
yields output clipped to the signal's own length, in either convolution
domain. -/
theorem convolve1_output_lengths (s k : List ℚ) (d : CONV_DOMAIN)
    (hk : 1 ≤ k.length) :
    (convolve1 s k .EXPAND d).length = s.length + k.length - 1 ∧
    (convolve1 s k .DEFAULT d).length = s.length := by
  have hfreq : (convFreqFull s k).length = s.length + k.length - 1 := by
    simp [convFreqFull]
  have hlin : (convLinFull s k).length = s.length + k.length - 1 := by
    simp [convLinFull]
  constructor
  · unfold convolve1
    rcases resolveDomain k.length d with _ | _ | _ <;>
      simp [clipMode, hfreq, hlin]
  · unfold convolve1
    rcases resolveDomain k.length d with _ | _ | _ <;>
      · simp only [clipMode, List.length_take, List.length_drop, hfreq, hlin]
        omega

/-- Witness for C4 at `s = [1,2,3]`, `k = [1,1]`, domain AUTO: EXPAND length
`4 = 3 + 2 - 1`, DEFAULT length `3`. -/
theorem convolve1_output_lengths_witness :
    (convolve1 [1, 2, 3] [1, 1] .EXPAND .AUTO).length = 3 + 2 - 1 ∧
    (convolve1 [1, 2, 3] [1, 1] .DEFAULT .AUTO).length = 3 :=
  convolve1_output_lengths [1, 2, 3] [1, 1] .AUTO (by decide)

/-- Reading an entry of a range-tabulated list. -/
theorem getD_map_range (f : ℕ → ℚ) (L n : ℕ) :
    ((List.range L).map f).getD n 0 = if n < L then f n else 0 := by
  rw [List.getD_eq_getElem?_getD, List.getElem?_map]
  by_cases h : n < L
  · rw [List.getElem?_range h, if_pos h]; rfl
  · rw [List.getElem?_eq_none (by simpa using Nat.le_of_not_lt h), if_neg h]; rfl

/-- Model validation: within the full extent, the padded cyclic convolution of
the frequency path agrees entrywise with the linear convolution (the 1-D
convolution theorem in exact arithmetic). -/
theorem cycConvEntry_eq_linConvEntry (s k : List ℚ) (hk : 1 ≤ k.length) (n : ℕ)
    (hn : n < s.length + k.length - 1) :
    cycConvEntry s k n = linConvEntry s k n := by
  rw [cycConvEntry, linConvEntry]
  rw [← Finset.sum_subset
    (Finset.range_subset.2 (by omega : s.length ≤ s.length + k.length - 1))
    (fun j _ hj => by
      rw [List.getD_eq_default s 0 (by simpa using hj), zero_mul])]
  refine Finset.sum_congr rfl fun j hj => ?_
  have hjm : j < s.length := Finset.mem_range.1 hj
  by_cases hjn : j ≤ n
  · rw [if_pos hjn]
    have hsplit : n + (s.length + k.length - 1) - j =
        (n - j) + (s.length + k.length - 1) := by omega
    rw [hsplit, Nat.add_mod_right, Nat.mod_eq_of_lt (by omega)]
  · rw [if_neg hjn]
    have hlt : n + (s.length + k.length - 1) - j < s.length + k.length - 1 := by
      omega
    rw [Nat.mod_eq_of_lt hlt, List.getD_eq_default k 0 (by omega), mul_zero]

/-- Model validation: the frequency-domain path of `convolve1` computes the
same full list as the spatial path (spec §8's convolution/FFT-convolution
equivalence, exactly over `ℚ`). -/
theorem convFreqFull_eq_convLinFull (s k : List ℚ) (hk : 1 ≤ k.length) :
    convFreqFull s k = convLinFull s k :=
  List.map_congr_left fun n hn =>
    cycConvEntry_eq_linConvEntry s k hk n (List.mem_range.1 hn)

/-- Modelled from the spec: `fir(B, X)` (signal.py:1302) delegates to the
native FIR filter, whose output is the linear convolution of the coefficient
vector with the signal truncated to the signal's own length (§4.6). -/
def fir (B X : List ℚ) : List ℚ :=
  (convLinFull B X).take X.length

/-- C5: for every coefficient vector `B` and signal `X`, entry `n` of
`fir(B, X)` is `∑_{i<len(B)} B[i]·X[n-i]` with out-of-range signal indices
contributing zero; in particular `fir([1,1], [1,2,3,4]) = [1,3,5,7]`. -/
theorem fir_formula (B X : List ℚ) (n : ℕ) (h : n < X.length) :
    ((fir B X).getD n 0 =
      ∑ i ∈ Finset.range B.length,
        if i ≤ n then B.getD i 0 * X.getD (n - i) 0 else 0) ∧
    fir [1, 1] [1, 2, 3, 4] = [1, 3, 5, 7] := by
  constructor
  · rw [fir, List.getD_eq_getElem?_getD, List.getElem?_take, if_pos h,
      ← List.getD_eq_getElem?_getD, convLinFull, getD_map_range]
    by_cases hL : n < B.length + X.length - 1
    · rw [if_pos hL]; rfl
    · rw [if_neg hL]
      have hB : B.length = 0 := by omega
      simp [linConvEntry, hB]
  · simp [fir, convLinFull, linConvEntry, List.range_succ, Finset.sum_range_succ]
    norm_num

/-- Witness for C5: the formula evaluated at `B = [1,1]`, `X = [1,2,3,4]`,
`n = 2`, together with the closed example. -/
theorem fir_formula_witness :
    2 < ([1, 2, 3, 4] : List ℚ).length ∧
    (((fir [1, 1] [1, 2, 3, 4]).getD 2 0 =
      ∑ i ∈ Finset.range ([1, 1] : List ℚ).length,
        if i ≤ 2 then
          ([1, 1] : List ℚ).getD i 0 * ([1, 2, 3, 4] : List ℚ).getD (2 - i) 0
        else 0) ∧
      fir [1, 1] [1, 2, 3, 4] = [1, 3, 5, 7]) :=
  ⟨by decide, fir_formula [1, 1] [1, 2, 3, 4] 2 (by decide)⟩

/-- The error taxonomy of spec §7. -/
inductive AFError where
  | invalidArgument : AFError
  | dimensionError : AFError
  | batchMismatch : AFError
  | unsupportedType : AFError
  | allocationError : AFError
deriving DecidableEq, Repr

/-- One step of the IIR recurrence (§4.6):
`y[n] = (∑_k B[k]·X[n-k] − ∑_{j≥1} A[j]·y[n-j]) / A[0]`, with `acc` the
outputs already produced. -/
def iirStep (B A X : List ℚ) (acc : List ℚ) (n : ℕ) : ℚ :=
  (linConvEntry B X n -
      ∑ j ∈ Finset.range (A.length - 1),
        if j + 1 ≤ n then A.getD (j + 1) 0 * acc.getD (n - (j + 1)) 0 else 0) /
    A.getD 0 0

/-- The IIR output sequence, built strictly left to right (§4.6). -/
def iirRun (B A X : List ℚ) : List ℚ :=
  (List.range X.length).foldl (fun acc n => acc ++ [iirStep B A X acc n]) []

/-- Modelled from the spec: `iir(B, A, X)` (signal.py:1326) delegates to the
native IIR filter; a zero leading feedback coefficient fails with
`InvalidArgument` (division by zero, §4.6), otherwise the recurrence output
is returned. -/
def iir (B A X : List ℚ) : Except AFError (List ℚ) :=
  if A.getD 0 0 = 0 then .error .invalidArgument else .ok (iirRun B A X)

/-- C6: whenever the leading feedback coefficient is zero, `iir` fails with
`InvalidArgument` and produces no output buffer. -/
theorem iir_zero_feedback_invalid (B A X : List ℚ) (h : A.getD 0 0 = 0) :
    iir B A X = .error .invalidArgument := by
  rw [iir, if_pos h]

/-- Witness for C6: `iir(B, [0,1], X)` fails with `InvalidArgument`. -/
theorem iir_zero_feedback_invalid_witness :
    iir [1, 2] [0, 1] [1, 2, 3] = .error .invalidArgument :=
  iir_zero_feedback_invalid [1, 2] [0, 1] [1, 2, 3] (by decide)

/-- Sanity check of the IIR model against spec §8's positive example:
`iir([1], [1,-1], [1,0,0,0]) == [1,1,1,1]` (causal integrator). -/
theorem iir_integrator_example :
    iir [1] [1, -1] [1, 0, 0, 0] = .ok [1, 1, 1, 1] := by
  rw [iir, if_neg (by decide : ¬(([1, -1] : List ℚ).getD 0 0 = 0))]
  exact congrArg Except.ok (by
    simp [iirRun, iirStep, linConvEntry, List.range_succ, Finset.sum_range_succ])

/-! ## FFT executor model (modelled from the spec)

The native transform engine behind `af_fft*`/`af_ifft*` is not part of the
source under study; spec §4.3 defines forward and inverse multi-dimensional
discrete Fourier transforms with a scale factor, the inverse defaulting to
`1/∏(output lengths)`.  The engine is modelled here exactly over `ℂ`. -/

open ComplexConjugate

/-- The complex exponential `e^(2πi·m/n)` used by an `n`-point transform. -/
noncomputable def ec (n : ℕ) (m : ℤ) : ℂ :=
  Complex.exp (2 * Real.pi * Complex.I * m / n)

theorem ec_add (n : ℕ) (a b : ℤ) : ec n a * ec n b = ec n (a + b) := by
  rw [ec, ec, ec, ← Complex.exp_add]
  congr 1
  push_cast
  ring

theorem ec_pow (n : ℕ) (m : ℤ) (k : ℕ) : ec n (m * k) = ec n m ^ k := by
  rw [ec, ec, ← Complex.exp_nat_mul]
  congr 1
  push_cast
  ring

theorem ec_mul_self (n : ℕ) (j : ℤ) : ec n (n * j) = 1 := by
  rcases Nat.eq_zero_or_pos n with h | h
  · subst h; simp [ec]
  · rw [ec]
    have hn : (n : ℂ) ≠ 0 := by exact_mod_cast h.ne'
    have harg : 2 * (Real.pi : ℂ) * Complex.I * ((n : ℤ) * j : ℤ) / n =
        (j : ℂ) * (2 * Real.pi * Complex.I) := by
      field_simp
      ring
    rw [harg, Complex.exp_int_mul_two_pi_mul_I]

theorem ec_eq_one_iff (n : ℕ) (m : ℤ) (hn : n ≠ 0) :
    ec n m = 1 ↔ (n : ℤ) ∣ m := by
  constructor
  · intro h
    rw [ec, Complex.exp_eq_one_iff] at h
    obtain ⟨j, hj⟩ := h
    have hπ : (2 * (Real.pi : ℂ) * Complex.I) ≠ 0 := by
      simp [Real.pi_ne_zero, Complex.I_ne_zero]
    have hnC : (n : ℂ) ≠ 0 := by exact_mod_cast hn
    have h2 : 2 * (Real.pi : ℂ) * Complex.I * m =
        2 * (Real.pi : ℂ) * Complex.I * (((n : ℤ) * j : ℤ) : ℂ) := by
      field_simp at hj
      push_cast
      linear_combination hj
    have h3 : (m : ℂ) = (((n : ℤ) * j : ℤ) : ℂ) := mul_left_cancel₀ hπ h2
    exact ⟨j, by exact_mod_cast h3⟩
  · rintro ⟨c, rfl⟩
    exact ec_mul_self n c

/-- Geometric-sum orthogonality: an `n`-point exponential sum vanishes unless
the frequency is a multiple of `n`. -/
theorem ec_sum_range (n : ℕ) (m : ℤ) :
    ∑ k ∈ Finset.range n, ec n (m * k) = if (n : ℤ) ∣ m then (n : ℂ) else 0 := by
  rcases Nat.eq_zero_or_pos n with h | h
  · subst h
    simp only [Finset.range_zero, Finset.sum_empty, Nat.cast_zero]
    by_cases hm : (0 : ℤ) ∣ m <;> simp [hm]
  · have hn : n ≠ 0 := h.ne'
    by_cases hdvd : (n : ℤ) ∣ m
    · have h1 : ec n m = 1 := (ec_eq_one_iff n m hn).2 hdvd
      rw [if_pos hdvd]
      calc ∑ k ∈ Finset.range n, ec n (m * k)
          = ∑ k ∈ Finset.range n, (1 : ℂ) := by
            refine Finset.sum_congr rfl fun k _ => ?_
            rw [ec_pow, h1, one_pow]
        _ = n := by simp
    · have h1 : ec n m ≠ 1 := fun hc => hdvd ((ec_eq_one_iff n m hn).1 hc)
      rw [if_neg hdvd]
      calc ∑ k ∈ Finset.range n, ec n (m * k)
          = ∑ k ∈ Finset.range n, ec n m ^ k := by
            refine Finset.sum_congr rfl fun k _ => ec_pow n m k
        _ = (ec n m ^ n - 1) / (ec n m - 1) := geom_sum_eq h1 n
        _ = 0 := by
            have hpow : ec n m ^ n = 1 := by
              rw [← ec_pow, mul_comm, ec_mul_self]
            rw [hpow, sub_self, zero_div]

theorem ec_ortho (n : ℕ) (d : ℤ) :
    ∑ k : Fin n, ec n (d * k) = if (n : ℤ) ∣ d then (n : ℂ) else 0 := by
  rw [Fin.sum_univ_eq_sum_range (fun k => ec n (d * k))]
  exact ec_sum_range n d

theorem fin_dvd_sub_iff (n : ℕ) (j i : Fin n) :
    (n : ℤ) ∣ ((j : ℤ) - i) ↔ j = i := by
  constructor
  · rintro ⟨c, hc⟩
    have hj : (j : ℤ) < n := by exact_mod_cast j.isLt
    have hi : (i : ℤ) < n := by exact_mod_cast i.isLt
    have hj0 : (0 : ℤ) ≤ j := by positivity
    have hi0 : (0 : ℤ) ≤ i := by positivity
    have hc0 : c = 0 := by
      rcases lt_trichotomy c 0 with hcn | hcz | hcp
      · have hb : (n : ℤ) * c ≤ -n := by nlinarith
        omega
      · exact hcz
      · have hb : (n : ℤ) ≤ n * c := by nlinarith
        omega
    rw [hc0, mul_zero, sub_eq_zero] at hc
    exact Fin.ext (by exact_mod_cast hc)
  · rintro rfl
    simp

/-- Modelled from the spec: the forward 1-D `n`-point transform of §4.3,
`X[k] = ∑_j x[j]·e^(-2πi·jk/n)` (unit default scale is applied by the
caller's scale argument being `1`). -/
noncomputable def dft1 (n : ℕ) (x : Fin n → ℂ) (k : Fin n) : ℂ :=
  ∑ j : Fin n, x j * ec n (-((j : ℤ) * k))

/-- Modelled from the spec: the inverse 1-D `n`-point transform of §4.3 with
an explicit scale factor, `x[j] = scale · ∑_k X[k]·e^(2πi·jk/n)`. -/
noncomputable def idft1 (n : ℕ) (scale : ℂ) (X : Fin n → ℂ) (j : Fin n) : ℂ :=
  scale * ∑ k : Fin n, X k * ec n ((j : ℤ) * k)

/-- Fourier inversion in one dimension with the default inverse scale `1/n`. -/
theorem idft1_dft1 (n : ℕ) (x : Fin n → ℂ) (j : Fin n) :
    idft1 n (1 / n) (dft1 n x) j = x j := by
  have hn : (n : ℂ) ≠ 0 := by
    have hp : 0 < n := j.pos
    exact_mod_cast hp.ne'
  rw [idft1]
  have hswap : ∑ k : Fin n, dft1 n x k * ec n ((j : ℤ) * k) =
      ∑ i : Fin n, x i * ∑ k : Fin n, ec n (((j : ℤ) - i) * k) := by
    simp only [dft1, Finset.sum_mul, Finset.mul_sum]
    rw [Finset.sum_comm]
    refine Finset.sum_congr rfl fun i _ => Finset.sum_congr rfl fun k _ => ?_
    rw [mul_assoc, ec_add]
    congr 2
    ring
  rw [hswap]
  have hterm : ∀ i : Fin n, x i * ∑ k : Fin n, ec n (((j : ℤ) - i) * k) =
      if i = j then x i * n else 0 := by
    intro i
    rw [ec_ortho]
    simp only [fin_dvd_sub_iff]
    by_cases h : j = i
    · subst h; simp
    · rw [if_neg h, if_neg (fun hc => h hc.symm), mul_zero]
  rw [Finset.sum_congr rfl fun i _ => hterm i,
    Finset.sum_ite_eq' Finset.univ j (fun i => x i * n)]
  simp only [Finset.mem_univ, if_true]
  field_simp

/-- Modelled from the spec: the forward 2-D transform (§4.3). -/
noncomputable def dft2 (n1 n2 : ℕ) (x : Fin n1 → Fin n2 → ℂ) (k1 : Fin n1)
    (k2 : Fin n2) : ℂ :=
  ∑ j1 : Fin n1, ∑ j2 : Fin n2,
    x j1 j2 * ec n1 (-((j1 : ℤ) * k1)) * ec n2 (-((j2 : ℤ) * k2))

/-- Modelled from the spec: the inverse 2-D transform with a scale (§4.3). -/
noncomputable def idft2 (n1 n2 : ℕ) (scale : ℂ) (X : Fin n1 → Fin n2 → ℂ)
    (j1 : Fin n1) (j2 : Fin n2) : ℂ :=
  scale * ∑ k1 : Fin n1, ∑ k2 : Fin n2,
    X k1 k2 * ec n1 ((j1 : ℤ) * k1) * ec n2 ((j2 : ℤ) * k2)

/-- The 1-D transform applied along axis 0 of a 2-D array. -/
noncomputable def dftAx0 (n1 n2 : ℕ) (x : Fin n1 → Fin n2 → ℂ) :
    Fin n1 → Fin n2 → ℂ :=
  fun k1 j2 => dft1 n1 (fun j1 => x j1 j2) k1

/-- The 1-D transform applied along axis 1 of a 2-D array. -/
noncomputable def dftAx1 (n1 n2 : ℕ) (x : Fin n1 → Fin n2 → ℂ) :
    Fin n1 → Fin n2 → ℂ :=
  fun j1 k2 => dft1 n2 (x j1) k2

/-- The scaled inverse 1-D transform along axis 0 of a 2-D array. -/
noncomputable def idftAx0 (n1 n2 : ℕ) (s : ℂ) (X : Fin n1 → Fin n2 → ℂ) :
    Fin n1 → Fin n2 → ℂ :=
  fun j1 k2 => idft1 n1 s (fun k1 => X k1 k2) j1

/-- The scaled inverse 1-D transform along axis 1 of a 2-D array. -/
noncomputable def idftAx1 (n1 n2 : ℕ) (s : ℂ) (X : Fin n1 → Fin n2 → ℂ) :
    Fin n1 → Fin n2 → ℂ :=
  fun j1 j2 => idft1 n2 s (X j1) j2

theorem dft2_eq_axes (n1 n2 : ℕ) (x : Fin n1 → Fin n2 → ℂ) :
    dft2 n1 n2 x = dftAx0 n1 n2 (dftAx1 n1 n2 x) := by
  funext k1 k2
  simp only [dft2, dftAx0, dftAx1, dft1, Finset.sum_mul]
  refine Finset.sum_congr rfl fun j1 _ => Finset.sum_congr rfl fun j2 _ => by ring

theorem idft2_eq_axes (n1 n2 : ℕ) (s1 s2 : ℂ) (X : Fin n1 → Fin n2 → ℂ) :
    idft2 n1 n2 (s1 * s2) X = idftAx1 n1 n2 s2 (idftAx0 n1 n2 s1 X) := by
  funext j1 j2
  simp only [idft2, idftAx0, idftAx1, idft1, Finset.mul_sum, Finset.sum_mul]
  rw [Finset.sum_comm]
  refine Finset.sum_congr rfl fun k2 _ => Finset.sum_congr rfl fun k1 _ => by ring

theorem idftAx0_dftAx0 (n1 n2 : ℕ) (y : Fin n1 → Fin n2 → ℂ) :
    idftAx0 n1 n2 (1 / n1) (dftAx0 n1 n2 y) = y := by
  funext j1 j2
  exact idft1_dft1 n1 (fun i => y i j2) j1

theorem idftAx1_dftAx1 (n1 n2 : ℕ) (y : Fin n1 → Fin n2 → ℂ) :
    idftAx1 n1 n2 (1 / n2) (dftAx1 n1 n2 y) = y := by
  funext j1 j2
  exact idft1_dft1 n2 (y j1) j2

/-- Fourier inversion in two dimensions with the default scale `1/(n1·n2)`. -/
theorem idft2_dft2 (n1 n2 : ℕ) (x : Fin n1 → Fin n2 → ℂ) :
    idft2 n1 n2 (1 / (n1 * n2 : ℕ)) (dft2 n1 n2 x) = x := by
  have hs : ((1 : ℂ) / (n1 * n2 : ℕ)) = (1 / n1) * (1 / n2) := by
    push_cast
    rw [div_mul_div_comm, one_mul]
  rw [hs, dft2_eq_axes, idft2_eq_axes, idftAx0_dftAx0, idftAx1_dftAx1]

/-- Modelled from the spec: the forward 3-D transform (§4.3). -/
noncomputable def dft3 (n1 n2 n3 : ℕ) (x : Fin n1 → Fin n2 → Fin n3 → ℂ)
    (k1 : Fin n1) (k2 : Fin n2) (k3 : Fin n3) : ℂ :=
  ∑ j1 : Fin n1, ∑ j2 : Fin n2, ∑ j3 : Fin n3,
    x j1 j2 j3 * ec n1 (-((j1 : ℤ) * k1)) * ec n2 (-((j2 : ℤ) * k2)) *
      ec n3 (-((j3 : ℤ) * k3))

/-- Modelled from the spec: the inverse 3-D transform with a scale (§4.3). -/
noncomputable def idft3 (n1 n2 n3 : ℕ) (scale : ℂ)
    (X : Fin n1 → Fin n2 → Fin n3 → ℂ) (j1 : Fin n1) (j2 : Fin n2)
    (j3 : Fin n3) : ℂ :=
  scale * ∑ k1 : Fin n1, ∑ k2 : Fin n2, ∑ k3 : Fin n3,
    X k1 k2 k3 * ec n1 ((j1 : ℤ) * k1) * ec n2 ((j2 : ℤ) * k2) *
      ec n3 ((j3 : ℤ) * k3)

/-- The 1-D transform along axis 0 of a 3-D array. -/
noncomputable def dft3Ax0 (n1 n2 n3 : ℕ) (x : Fin n1 → Fin n2 → Fin n3 → ℂ) :
    Fin n1 → Fin n2 → Fin n3 → ℂ :=
  fun k1 j2 j3 => dft1 n1 (fun j1 => x j1 j2 j3) k1

/-- The 1-D transform along axis 1 of a 3-D array. -/
noncomputable def dft3Ax1 (n1 n2 n3 : ℕ) (x : Fin n1 → Fin n2 → Fin n3 → ℂ) :
    Fin n1 → Fin n2 → Fin n3 → ℂ :=
  fun j1 k2 j3 => dft1 n2 (fun j2 => x j1 j2 j3) k2

/-- The 1-D transform along axis 2 of a 3-D array. -/
noncomputable def dft3Ax2 (n1 n2 n3 : ℕ) (x : Fin n1 → Fin n2 → Fin n3 → ℂ) :
    Fin n1 → Fin n2 → Fin n3 → ℂ :=
  fun j1 j2 k3 => dft1 n3 (x j1 j2) k3

/-- The scaled inverse 1-D transform along axis 0 of a 3-D array. -/
noncomputable def idft3Ax0 (n1 n2 n3 : ℕ) (s : ℂ)
    (X : Fin n1 → Fin n2 → Fin n3 → ℂ) : Fin n1 → Fin n2 → Fin n3 → ℂ :=
  fun j1 k2 k3 => idft1 n1 s (fun k1 => X k1 k2 k3) j1

/-- The scaled inverse 1-D transform along axis 1 of a 3-D array. -/
noncomputable def idft3Ax1 (n1 n2 n3 : ℕ) (s : ℂ)
    (X : Fin n1 → Fin n2 → Fin n3 → ℂ) : Fin n1 → Fin n2 → Fin n3 → ℂ :=
  fun j1 j2 k3 => idft1 n2 s (fun k2 => X j1 k2 k3) j2

/-- The scaled inverse 1-D transform along axis 2 of a 3-D array. -/
noncomputable def idft3Ax2 (n1 n2 n3 : ℕ) (s : ℂ)
    (X : Fin n1 → Fin n2 → Fin n3 → ℂ) : Fin n1 → Fin n2 → Fin n3 → ℂ :=
  fun j1 j2 j3 => idft1 n3 s (X j1 j2) j3

/-- Rotating a triple sum. -/
theorem sum3_rotate {n1 n2 n3 : ℕ} (f : Fin n1 → Fin n2 → Fin n3 → ℂ) :
    ∑ k1 : Fin n1, ∑ k2 : Fin n2, ∑ k3 : Fin n3, f k1 k2 k3 =
      ∑ k3 : Fin n3, ∑ k2 : Fin n2, ∑ k1 : Fin n1, f k1 k2 k3 :=
  calc ∑ k1 : Fin n1, ∑ k2 : Fin n2, ∑ k3 : Fin n3, f k1 k2 k3
      = ∑ k2 : Fin n2, ∑ k1 : Fin n1, ∑ k3 : Fin n3, f k1 k2 k3 :=
        Finset.sum_comm
    _ = ∑ k2 : Fin n2, ∑ k3 : Fin n3, ∑ k1 : Fin n1, f k1 k2 k3 :=
        Finset.sum_congr rfl fun _ _ => Finset.sum_comm
    _ = ∑ k3 : Fin n3, ∑ k2 : Fin n2, ∑ k1 : Fin n1, f k1 k2 k3 :=
        Finset.sum_comm

theorem dft3_eq_axes (n1 n2 n3 : ℕ) (x : Fin n1 → Fin n2 → Fin n3 → ℂ) :
    dft3 n1 n2 n3 x =
      dft3Ax0 n1 n2 n3 (dft3Ax1 n1 n2 n3 (dft3Ax2 n1 n2 n3 x)) := by
  funext k1 k2 k3
  simp only [dft3, dft3Ax0, dft3Ax1, dft3Ax2, dft1, Finset.sum_mul]
  refine Finset.sum_congr rfl fun j1 _ => Finset.sum_congr rfl fun j2 _ =>
    Finset.sum_congr rfl fun j3 _ => by ring

theorem idft3_eq_axes (n1 n2 n3 : ℕ) (s1 s2 s3 : ℂ)
    (X : Fin n1 → Fin n2 → Fin n3 → ℂ) :
    idft3 n1 n2 n3 (s1 * s2 * s3) X =
      idft3Ax2 n1 n2 n3 s3 (idft3Ax1 n1 n2 n3 s2 (idft3Ax0 n1 n2 n3 s1 X)) := by
  funext j1 j2 j3
  simp only [idft3, idft3Ax0, idft3Ax1, idft3Ax2, idft1, Finset.mul_sum,
    Finset.sum_mul]
  rw [sum3_rotate]
  refine Finset.sum_congr rfl fun k3 _ => Finset.sum_congr rfl fun k2 _ =>
    Finset.sum_congr rfl fun k1 _ => by ring

/-- Fourier inversion in three dimensions with the default scale
`1/(n1·n2·n3)`. -/
theorem idft3_dft3 (n1 n2 n3 : ℕ) (x : Fin n1 → Fin n2 → Fin n3 → ℂ) :
    idft3 n1 n2 n3 (1 / (n1 * n2 * n3 : ℕ)) (dft3 n1 n2 n3 x) = x := by
  have hs : ((1 : ℂ) / (n1 * n2 * n3 : ℕ)) =
      (1 / n1) * (1 / n2) * (1 / n3) := by
    push_cast
    rw [div_mul_div_comm, div_mul_div_comm, one_mul, one_mul]
  rw [hs, dft3_eq_axes, idft3_eq_axes]
  have h0 : idft3Ax0 n1 n2 n3 (1 / n1)
      (dft3Ax0 n1 n2 n3 (dft3Ax1 n1 n2 n3 (dft3Ax2 n1 n2 n3 x))) =
      dft3Ax1 n1 n2 n3 (dft3Ax2 n1 n2 n3 x) := by
    funext a b c
    exact idft1_dft1 n1 (fun i => dft3Ax1 n1 n2 n3 (dft3Ax2 n1 n2 n3 x) i b c) a
  rw [h0]
  have h1 : idft3Ax1 n1 n2 n3 (1 / n2)
      (dft3Ax1 n1 n2 n3 (dft3Ax2 n1 n2 n3 x)) = dft3Ax2 n1 n2 n3 x := by
    funext a b c
    exact idft1_dft1 n2 (fun i => dft3Ax2 n1 n2 n3 x a i c) b
  rw [h1]
  funext a b c
  exact idft1_dft1 n3 (x a b) c

/-- C2: the forward wrappers default their scale to `1.0` and the inverse
wrappers to `1.0 / ∏(output lengths)` (marshaling facts from the source), the
two defaults multiply to exactly `1/N`, and with precisely those scales the
inverse transform of the forward transform reproduces every rank-1, rank-2
and rank-3 complex signal exactly in the exact-arithmetic model (hence within
floating-point tolerance in the binding; real signals are the special case of
complex signals with zero imaginary parts). -/
theorem fft_ifft_roundtrip_default_scales (n1 n2 n3 : ℕ)
    (h1 : 1 ≤ n1) (h2 : 1 ≤ n2) (h3 : 1 ≤ n3)
    (x1 : Fin n1 → ℂ) (x2 : Fin n1 → Fin n2 → ℂ)
    (x3 : Fin n1 → Fin n2 → Fin n3 → ℂ) :
    fft ⟨[n1]⟩ .vnone .vnone = .ok (.af_fft 1 0) ∧
    ifft ⟨[n1]⟩ .vnone .vnone = .ok (.af_ifft (1 / (n1 : ℚ)) (n1 : ℤ)) ∧
    ifft2 ⟨[n1, n2]⟩ .vnone .vnone .vnone =
      .ok (.af_ifft2 (1 / ((n1 : ℚ) * n2)) (n1 : ℤ) (n2 : ℤ)) ∧
    ifft3 ⟨[n1, n2, n3]⟩ .vnone .vnone .vnone .vnone =
      .ok (.af_ifft3 (1 / ((n1 : ℚ) * n2 * n3)) (n1 : ℤ) (n2 : ℤ) (n3 : ℤ)) ∧
    (1 : ℚ) * (1 / ((n1 : ℚ) * n2 * n3)) = 1 / ((n1 : ℚ) * n2 * n3) ∧
    idft1 n1 (1 / n1) (dft1 n1 x1) = x1 ∧
    idft2 n1 n2 (1 / (n1 * n2 : ℕ)) (dft2 n1 n2 x2) = x2 ∧
    idft3 n1 n2 n3 (1 / (n1 * n2 * n3 : ℕ)) (dft3 n1 n2 n3 x3) = x3 := by
  have e1 : ((n1 : ℚ)) ≠ 0 := by positivity
  have e2 : ((n1 : ℚ) * n2) ≠ 0 := by
    have : (0 : ℚ) < (n1 : ℚ) * n2 := by
      have b1 : (0 : ℚ) < n1 := by exact_mod_cast h1
      have b2 : (0 : ℚ) < n2 := by exact_mod_cast h2
      positivity
    exact this.ne'
  have e3 : ((n1 : ℚ) * n2 * n3) ≠ 0 := by
    have b1 : (0 : ℚ) < n1 := by exact_mod_cast h1
    have b2 : (0 : ℚ) < n2 := by exact_mod_cast h2
    have b3 : (0 : ℚ) < n3 := by exact_mod_cast h3
    have : (0 : ℚ) < (n1 : ℚ) * n2 * n3 := by positivity
    exact this.ne'
  refine ⟨rfl, ?_, ?_, ?_, one_mul _, ?_, idft2_dft2 n1 n2 x2, idft3_dft3 n1 n2 n3 x3⟩
  · simp [ifft, pyIndex, pyFloat, pyInv, c_double_t, c_dim_t, bind, Except.bind, pure, Except.pure, e1]
  · simp [ifft2, pyIndex, pyFloat, pyInv, pyMul, c_double_t, c_dim_t, bind,
      Except.bind, pure, Except.pure, e2]
  · have hcond : ¬(n1 = 0 ∨ n2 = 0 ∨ n3 = 0) := by omega
    simp [ifft3, pyIndex, pyFloat, pyInv, pyMul, c_double_t, c_dim_t, bind,
      Except.bind, pure, Except.pure, e3, mul_assoc, if_neg hcond]
  · funext j
    exact idft1_dft1 n1 x1 j

/-- Witness for C2 at `n1 = 2`, `n2 = 3`, `n3 = 2` and constant signals. -/
theorem fft_ifft_roundtrip_default_scales_witness :
    fft ⟨[2]⟩ .vnone .vnone = .ok (.af_fft 1 0) ∧
    ifft ⟨[2]⟩ .vnone .vnone = .ok (.af_ifft (1 / (2 : ℚ)) (2 : ℤ)) ∧
    ifft2 ⟨[2, 3]⟩ .vnone .vnone .vnone =
      .ok (.af_ifft2 (1 / ((2 : ℚ) * 3)) (2 : ℤ) (3 : ℤ)) ∧
    ifft3 ⟨[2, 3, 2]⟩ .vnone .vnone .vnone .vnone =
      .ok (.af_ifft3 (1 / ((2 : ℚ) * 3 * 2)) (2 : ℤ) (3 : ℤ) (2 : ℤ)) ∧
    (1 : ℚ) * (1 / ((2 : ℚ) * 3 * 2)) = 1 / ((2 : ℚ) * 3 * 2) ∧
    idft1 2 (1 / 2) (dft1 2 (fun _ => 1)) = (fun _ => 1) ∧
    idft2 2 3 (1 / (2 * 3 : ℕ)) (dft2 2 3 (fun _ _ => 1)) = (fun _ _ => 1) ∧
    idft3 2 3 2 (1 / (2 * 3 * 2 : ℕ)) (dft3 2 3 2 (fun _ _ _ => 1)) =
      (fun _ _ _ => 1) :=
  fft_ifft_roundtrip_default_scales 2 3 2 (by decide) (by decide) (by decide)
    (fun _ => 1) (fun _ _ => 1) (fun _ _ _ => 1)

/-! ## Real-to-complex and complex-to-real transforms (C7) -/

/-- The 1-D transform evaluated at an arbitrary integer frequency (the
spectrum extended periodically beyond `Fin n`). -/
noncomputable def dftAt (n : ℕ) (x : Fin n → ℂ) (m : ℤ) : ℂ :=
  ∑ j : Fin n, x j * ec n (-((j : ℤ) * m))

theorem conj_ec (n : ℕ) (m : ℤ) : conj (ec n m) = ec n (-m) := by
  rw [ec, ec, ← Complex.exp_conj]
  congr 1
  simp only [map_div₀, map_mul, Complex.conj_I, Complex.conj_ofReal, map_intCast,
    map_natCast, map_ofNat]
  push_cast
  ring

theorem dftAt_conj_real (n : ℕ) (x : Fin n → ℝ) (m : ℤ) :
    conj (dftAt n (fun j => (x j : ℂ)) m) = dftAt n (fun j => (x j : ℂ)) (-m) := by
  rw [dftAt, dftAt, map_sum]
  refine Finset.sum_congr rfl fun j _ => ?_
  rw [map_mul, conj_ec, Complex.conj_ofReal]
  congr 2
  ring

theorem dftAt_periodic (n : ℕ) (x : Fin n → ℂ) (m : ℤ) :
    dftAt n x (m + n) = dftAt n x m := by
  rw [dftAt, dftAt]
  refine Finset.sum_congr rfl fun j _ => ?_
  have hsplit : -((j : ℤ) * (m + n)) = -((j : ℤ) * m) + (n : ℤ) * (-(j : ℤ)) := by
    ring
  rw [hsplit, ← ec_add, ec_mul_self, mul_one]

/-- The non-redundant half-spectrum length `⌊n/2⌋+1` of the r2c variants
(spec §4.3). -/
def halfLen (n : ℕ) : ℕ := n / 2 + 1

/-- `_get_c2r_dim(dim, is_odd)` (signal.py:723): the full output length
`2*(dim-1) + int(is_odd)` resolved from a half-spectrum length, over Python
integers. -/
def _get_c2r_dim (dim : ℤ) (is_odd : Bool) : ℤ :=
  2 * (dim - 1) + (if is_odd then 1 else 0)

/-- The same resolved length over `ℕ`, used to index the model's output. -/
def c2rDim (d : ℕ) (is_odd : Bool) : ℕ :=
  2 * (d - 1) + (if is_odd then 1 else 0)

theorem _get_c2r_dim_eq_c2rDim (d : ℕ) (hd : 1 ≤ d) (odd : Bool) :
    _get_c2r_dim (d : ℤ) odd = (c2rDim d odd : ℤ) := by
  cases odd <;> simp [_get_c2r_dim, c2rDim] <;> omega

/-- With the half length of an `n`-point real signal and
`is_odd = (n % 2 == 1)`, the resolved full length is `n` again. -/
theorem c2rDim_halfLen (n : ℕ) (hn : 1 ≤ n) :
    c2rDim (halfLen n) (n % 2 == 1) = n := by
  rcases Nat.mod_two_eq_zero_or_one n with hp | hp <;>
    simp [c2rDim, halfLen, hp] <;> omega

/-- `fft_r2c(signal, dim0=None, scale=None)` (signal.py:594): default
`dim0 = 0`, default `scale = 1.0`, marshaled into `af_fft_r2c`. -/
def fft_r2c (signal : AFArr) (dim0 : PyVal) (scale : PyVal) :
    Except PyErr BackendCall := do
  let _ := signal
  let dim0 := if dim0 = .vnone then .vint 0 else dim0
  let s ← c_double_t (if scale = .vnone then .vfloat 1 else scale)
  let d ← c_dim_t dim0
  return .af_fft_r2c s d

/-- `fft_c2r(signal, is_odd=False, scale=None)` (signal.py:726): default
`scale = 1.0/float(_get_c2r_dim(signal.dims()[0], is_odd))`, marshaled into
`af_fft_c2r` together with the `is_odd` flag. -/
def fft_c2r (signal : AFArr) (is_odd : Bool) (scale : PyVal) :
    Except PyErr BackendCall := do
  let scale ← if scale = .vnone then do
      let d ← pyIndex signal.dims 0
      pure (PyVal.vfloat (← pyInv ((_get_c2r_dim d is_odd : ℤ) : ℚ)))
    else pure scale
  let s ← c_double_t scale
  return .af_fft_c2r s is_odd

/-- Modelled from the spec: the native r2c transform keeps the non-redundant
half of the spectrum of a real signal, length `⌊n/2⌋+1` (§4.3). -/
noncomputable def r2cSpectrum (n : ℕ) (x : Fin n → ℝ) : Fin (halfLen n) → ℂ :=
  fun k => dftAt n (fun j => (x j : ℂ)) ((k : ℕ) : ℤ)

/-- The full spectrum reconstructed from a half spectrum by conjugate
symmetry: bin `k` below the half length is stored, bin `k` above it is
`conj(S[N-k])`. -/
noncomputable def fullSpec (h N : ℕ) (S : Fin h → ℂ) : Fin N → ℂ :=
  fun k =>
    if hk : (k : ℕ) < h then S ⟨k, hk⟩
    else if hk' : N - k < h then conj (S ⟨N - k, hk'⟩) else 0

/-- Modelled from the spec: the native c2r transform resolves the full output
length from `is_odd`, rebuilds the conjugate-symmetric full spectrum and
applies the scaled inverse transform, returning a real signal (§4.3). -/
noncomputable def c2rSignal (h : ℕ) (S : Fin h → ℂ) (is_odd : Bool)
    (scale : ℂ) : Fin (c2rDim h is_odd) → ℝ :=
  fun j => (idft1 (c2rDim h is_odd) scale (fullSpec h (c2rDim h is_odd) S) j).re

/-- The symmetric extension of the stored half spectrum of a real signal is
its full spectrum. -/
theorem fullSpec_r2cSpectrum (n : ℕ) (x : Fin n → ℝ) :
    fullSpec (halfLen n) n (r2cSpectrum n x) = dft1 n (fun j => (x j : ℂ)) := by
  funext k
  by_cases hk : (k : ℕ) < halfLen n
  · rw [fullSpec, dif_pos hk]
    rfl
  · have hk2 : n - (k : ℕ) < halfLen n := by
      have := k.isLt
      simp only [halfLen] at hk ⊢
      omega
    rw [fullSpec, dif_neg hk, dif_pos hk2]
    have h1 : conj (r2cSpectrum n x ⟨n - (k : ℕ), hk2⟩) =
        dftAt n (fun j => (x j : ℂ)) (-((n - (k : ℕ) : ℕ) : ℤ)) :=
      dftAt_conj_real n x _
    rw [h1, ← dftAt_periodic]
    have harg : (-((n - (k : ℕ) : ℕ) : ℤ)) + (n : ℤ) = ((k : ℕ) : ℤ) := by
      have := k.isLt
      push_cast [Nat.cast_sub (le_of_lt k.isLt)]
      ring
    rw [harg]
    rfl

/-- Transporting the scaled inverse of a symmetric extension along an equality
of the resolved length. -/
theorem idft1_fullSpec_cast (h N n : ℕ) (e : N = n) (S : Fin h → ℂ) (sc : ℂ)
    (j : Fin n) :
    idft1 N sc (fullSpec h N S) (Fin.cast e.symm j) =
      idft1 n sc (fullSpec h n S) j := by
  subst e
  rfl

/-- C7: `fft_r2c` defaults its scale to `1.0` and `fft_c2r` to one over the
resolved full length `_get_c2r_dim(dims[0], is_odd) = 2*(dim0-1)+is_odd`
(marshaling facts from the source; with `is_odd = (n % 2 == 1)` the resolved
length is `n` and the default scale is `1/n`), and in the exact model the c2r
transform of the r2c half spectrum with those defaults reproduces every real
1-D signal exactly. -/
theorem fft_r2c_c2r_roundtrip (n : ℕ) (hn : 1 ≤ n) (x : Fin n → ℝ) :
    fft_r2c ⟨[n]⟩ .vnone .vnone = .ok (.af_fft_r2c 1 0) ∧
    _get_c2r_dim ((halfLen n : ℕ) : ℤ) (n % 2 == 1) = (n : ℤ) ∧
    fft_c2r ⟨[halfLen n]⟩ (n % 2 == 1) .vnone =
      .ok (.af_fft_c2r (1 / (n : ℚ)) (n % 2 == 1)) ∧
    ∀ j : Fin n,
      c2rSignal (halfLen n) (r2cSpectrum n x) (n % 2 == 1) (1 / (n : ℂ))
        (Fin.cast (c2rDim_halfLen n hn).symm j) = x j := by
  have hg : _get_c2r_dim ((halfLen n : ℕ) : ℤ) (n % 2 == 1) = (n : ℤ) := by
    rw [_get_c2r_dim_eq_c2rDim (halfLen n) (by simp [halfLen]) _,
      c2rDim_halfLen n hn]
  refine ⟨rfl, hg, ?_, ?_⟩
  · have hgq : ((_get_c2r_dim ((halfLen n : ℕ) : ℤ) (n % 2 == 1) : ℤ) : ℚ) =
        (n : ℚ) := by
      rw [hg]
      norm_cast
    have e1 : ((n : ℚ)) ≠ 0 := by positivity
    simp [fft_c2r, pyIndex, pyInv, c_double_t, bind, Except.bind, pure,
      Except.pure, hgq, e1]
  · intro j
    show (idft1 (c2rDim (halfLen n) (n % 2 == 1)) (1 / (n : ℂ))
      (fullSpec (halfLen n) (c2rDim (halfLen n) (n % 2 == 1))
        (r2cSpectrum n x))
      (Fin.cast (c2rDim_halfLen n hn).symm j)).re = x j
    rw [idft1_fullSpec_cast _ _ _ (c2rDim_halfLen n hn), fullSpec_r2cSpectrum,
      idft1_dft1]
    exact Complex.ofReal_re (x j)

/-- Witness for C7 at `n = 3` and the constant signal `1`: the marshaling
facts and the round trip at output index `0`. -/
theorem fft_r2c_c2r_roundtrip_witness :
    fft_r2c ⟨[3]⟩ .vnone .vnone = .ok (.af_fft_r2c 1 0) ∧
    _get_c2r_dim ((halfLen 3 : ℕ) : ℤ) (3 % 2 == 1) = (3 : ℤ) ∧
    fft_c2r ⟨[halfLen 3]⟩ (3 % 2 == 1) .vnone =
      .ok (.af_fft_c2r (1 / (3 : ℚ)) (3 % 2 == 1)) ∧
    c2rSignal (halfLen 3) (r2cSpectrum 3 (fun _ => 1)) (3 % 2 == 1)
      (1 / (3 : ℂ)) (Fin.cast (c2rDim_halfLen 3 (by decide)).symm ⟨0, by decide⟩) =
      1 := by
  obtain ⟨p1, p2, p3, p4⟩ := fft_r2c_c2r_roundtrip 3 (by decide) (fun _ => 1)
  exact ⟨p1, p2, p3, p4 ⟨0, by decide⟩⟩

/-! ## Transform plan cache (C8)

`set_fft_plan_cache_size(cache_size)` (signal.py:1444) forwards the size to
the native engine; the cache itself lives behind the binding and is modelled
from spec §4.2: a bounded process-wide store keyed by (length, direction,
type), LRU-evicted, with plans built deterministically from their key. -/

/-- The element types a plan can be built for (spec §3). -/
inductive DType where
  | f32 : DType
  | f64 : DType
  | c32 : DType
  | c64 : DType
deriving DecidableEq, Repr

/-- A plan-cache key: transform length, direction and element type (§4.2). -/
structure PlanKey where
  len : ℕ
  inverse : Bool
  dtype : DType
deriving DecidableEq, Repr

/-- A transform plan: its key plus the precomputed factorization stages
(§3, §4.2). -/
structure Plan where
  key : PlanKey
  stages : List ℕ
deriving DecidableEq, Repr

/-- Modelled from the spec: plan construction factorizes the length into
prime stages and is a pure function of the key (§4.2). -/
def buildPlan (k : PlanKey) : Plan :=
  ⟨k, k.len.primeFactorsList⟩

/-- The process-wide plan cache: configured capacity and entries ordered
most-recently-used first. -/
structure PlanCache where
  capacity : ℕ
  entries : List (PlanKey × Plan)

/-- Modelled from the spec: the cache starts empty at process start (§4.2). -/
def emptyCache (cap : ℕ) : PlanCache :=
  ⟨cap, []⟩

/-- `set_fft_plan_cache_size(cache_size)` (signal.py:1444, semantics per spec
§4.2): resize the bounded cache, evicting least-recently-used entries
immediately when shrinking; size `0` disables caching. -/
def set_fft_plan_cache_size (c : PlanCache) (cache_size : ℕ) : PlanCache :=
  ⟨cache_size, c.entries.take cache_size⟩

/-- Modelled from the spec: `plan(length, direction, type)` returns the
cached plan on a hit (refreshing its recency), otherwise builds the plan,
inserts it and truncates to the capacity (§4.2). -/
def getPlan (c : PlanCache) (k : PlanKey) : Plan × PlanCache :=
  match c.entries.find? (fun e => e.1 == k) with
  | some e => (e.2, ⟨c.capacity, e :: c.entries.eraseP (fun e' => e'.1 == k)⟩)
  | none =>
      let p := buildPlan k
      (p, ⟨c.capacity, ((k, p) :: c.entries).take c.capacity⟩)

/-- Modelled from the spec: the executor applies a plan to a signal — the
plan's length and direction select the transform and the default-scaled
inverse (§4.3); the signal is zero-padded/truncated to the plan length. -/
noncomputable def execPlan (p : Plan) (x : List ℂ) : List ℂ :=
  (List.range p.key.len).map fun k =>
    (if p.key.inverse then 1 / (p.key.len : ℂ) else 1) *
      ∑ j ∈ Finset.range p.key.len,
        x.getD j 0 * ec p.key.len ((if p.key.inverse then 1 else -1) * (j * k))

/-- One transform call: fetch or build the plan, execute it, return the
numeric result and the updated cache state. -/
noncomputable def transformStep (c : PlanCache) (k : PlanKey) (x : List ℂ) :
    List ℂ × PlanCache :=
  ((execPlan (getPlan c k).1 x), (getPlan c k).2)

/-- Run a sequence of transform calls against a cache, collecting the
numeric results. -/
noncomputable def runTransforms (c : PlanCache) :
    List (PlanKey × List ℂ) → List (List ℂ)
  | [] => []
  | (k, x) :: rest =>
      (transformStep c k x).1 :: runTransforms (transformStep c k x).2 rest

/-- Cache coherence: every cached plan is the plan built from its key. -/
def cacheOK (c : PlanCache) : Prop :=
  ∀ e ∈ c.entries, e.2 = buildPlan e.1

theorem getPlan_fst (c : PlanCache) (k : PlanKey) (h : cacheOK c) :
    (getPlan c k).1 = buildPlan k := by
  rw [getPlan]
  cases hfind : c.entries.find? (fun e => e.1 == k) with
  | none => rfl
  | some e =>
      have hmem : e ∈ c.entries := List.mem_of_find?_eq_some hfind
      have hkey : e.1 = k := by
        have hp := List.find?_some hfind
        exact eq_of_beq hp
      simp only
      rw [h e hmem, hkey]

theorem getPlan_snd (c : PlanCache) (k : PlanKey) (h : cacheOK c) :
    cacheOK (getPlan c k).2 := by
  rw [getPlan]
  cases hfind : c.entries.find? (fun e => e.1 == k) with
  | none =>
      intro e he
      simp only at he
      have hsub := List.take_subset c.capacity (((k, buildPlan k)) :: c.entries)
      rcases List.mem_cons.1 (hsub he) with h1 | h2
      · subst h1; rfl
      · exact h e h2
  | some e' =>
      intro e he
      simp only at he
      rcases List.mem_cons.1 he with h1 | h2
      · rw [h1]
        exact h e' (List.mem_of_find?_eq_some hfind)
      · exact h e (List.mem_of_mem_eraseP h2)

/-- Numeric results of a run depend only on the call list, never on the
coherent cache state it starts from. -/
theorem runTransforms_congr (calls : List (PlanKey × List ℂ)) :
    ∀ c1 c2 : PlanCache, cacheOK c1 → cacheOK c2 →
      runTransforms c1 calls = runTransforms c2 calls := by
  induction calls with
  | nil => intro c1 c2 _ _; rfl
  | cons kx rest ih =>
      intro c1 c2 h1 h2
      obtain ⟨k, x⟩ := kx
      rw [runTransforms, runTransforms]
      have hhead : (transformStep c1 k x).1 = (transformStep c2 k x).1 := by
        rw [transformStep, transformStep, getPlan_fst c1 k h1, getPlan_fst c2 k h2]
      rw [hhead, ih (transformStep c1 k x).2 (transformStep c2 k x).2
        (getPlan_snd c1 k h1) (getPlan_snd c2 k h2)]

/-- C8: starting from the process-initial empty cache, any sequence of
transforms run after `set_fft_plan_cache_size(1)` produces numeric results
identical to the same sequence run under a disabled (capacity-0) cache — the
plan cache configuration never affects transform values. -/
theorem fft_plan_cache_size_independent (cap : ℕ)
    (calls : List (PlanKey × List ℂ)) :
    runTransforms (set_fft_plan_cache_size (emptyCache cap) 1) calls =
      runTransforms (set_fft_plan_cache_size (emptyCache cap) 0) calls := by
  refine runTransforms_congr calls _ _ ?_ ?_ <;>
    · intro e he
      simp [set_fft_plan_cache_size, emptyCache] at he

end ArrayFire
